import Mathlib

/-!
Verification of the gcemeta metadata client.

The repository ships two parallel implementations of the same client: a
synchronous one (src/metadata.rs, attohttpc transport, an atomic-CAS cache
cell per cached getter, and a channel-based probe race for on-GCE
detection) and an asynchronous one (src/lib.rs, hyper transport, an
RwLock-guarded cache per field, and a tokio::select! probe race).  The
definitions below embed both; each definition's doc comment names the
source location it translates.
-/

namespace Gcemeta

/-- Error details of the sync crate (src/error.rs, `ErrorKind`).  The
`HttpRequest` payload (an attohttpc transport error) carries no information
any claim inspects, so it is dropped; the status code of `HttpResponse` is
kept as a natural number. -/
inductive ErrorKind where
  | Uninitialized : ErrorKind
  | HttpRequest : ErrorKind
  | HttpResponse (code : Nat) : ErrorKind
  | MetadataParse (tag : String) : ErrorKind
deriving DecidableEq, Repr

/-- Errors of the async client (src/lib.rs, `Error`); payloads other than
the status code are dropped, as no claim inspects them. -/
inductive LibError where
  | Http : LibError
  | Uri : LibError
  | StatusCode (code : Nat) : LibError
  | Encoding : LibError
  | Json : LibError
deriving DecidableEq, Repr

/-- Decidable equality for `Except`, used to evaluate the embeddings on
concrete inputs. -/
instance exceptDecEq {ε α : Type} [DecidableEq ε] [DecidableEq α] :
    DecidableEq (Except ε α) := fun x y =>
  match x, y with
  | .ok a, .ok b => if h : a = b then isTrue (by rw [h]) else isFalse (by simp [h])
  | .error a, .error b => if h : a = b then isTrue (by rw [h]) else isFalse (by simp [h])
  | .ok _, .error _ => isFalse (by simp)
  | .error _, .ok _ => isFalse (by simp)

/-- Whitespace recognizer for Rust `str::trim`, restricted to the ASCII
whitespace that occurs in metadata bodies (space, tab, line feed, carriage
return). -/
def isWS (c : Char) : Bool :=
  c == ' ' || c == '\t' || c == '\n' || c == '\r'

/-- Splitting a character list at every occurrence of `sep`, keeping empty
pieces, as Rust `str::split(sep)` does: the result always has exactly one
more piece than there are separators, so it is never empty (`""` splits to
`[""]`). -/
def splitChar (sep : Char) : List Char → List (List Char)
  | [] => [[]]
  | c :: cs =>
    match splitChar sep cs with
    | [] => [[c]]
    | h :: t => if c = sep then [] :: h :: t else (c :: h) :: t

/-- Rust `str::trim` on the underlying character list. -/
def trimChars (cs : List Char) : List Char :=
  ((cs.dropWhile isWS).reverse.dropWhile isWS).reverse

/-- Embedding of the `trim` helper (src/metadata.rs 247-249), also used for
the whole-body trimming done by `Client::get(path, true)`
(src/lib.rs 238-244). -/
def trim (s : String) : String :=
  String.mk (trimChars s.data)

/-- Strip one trailing carriage return, as Rust `str::lines` does on every
line that was terminated by a line feed. -/
def stripCR (cs : List Char) : List Char :=
  match cs.reverse with
  | r :: rest => if r = '\r' then rest.reverse else cs
  | [] => cs

/-- Embedding of Rust `str::lines`: split at line feeds, drop the final
empty piece produced by a trailing line feed, and strip one carriage return
from every piece that was actually terminated by a line feed (a trailing
carriage return of the final, unterminated piece is kept, as in Rust). -/
def rustLines (s : String) : List String :=
  let parts := splitChar '\n' s.data
  let front := parts.dropLast.map (fun cs => String.mk (stripCR cs))
  match parts.getLast? with
  | some [] => front
  | some l => front ++ [String.mk l]
  | none => front

/-- Embedding of the `lines` helper (src/metadata.rs 251-257): split on
newlines, trim every line, drop the empty ones. -/
def lines (s : String) : List String :=
  ((rustLines s).map trim).filter (fun l => !l.isEmpty)

/-- Body transform of the async list getters `Client::instance_attrs` and
`Client::project_attrs` (src/lib.rs 394-404): raw `str::lines` with no
per-line trimming and no dropping of empty lines
(`s.lines().map(ToOwned::to_owned).collect()`). -/
def client_attrs_lines (s : String) : List String :=
  rustLines s

/-- Specification-side reading of "the first `sep`-delimited segment": the
longest prefix free of the separator. -/
def firstSegment (sep : Char) (cs : List Char) : List Char :=
  cs.takeWhile (fun c => c != sep)

/-- Specification-side reading of "the last `sep`-delimited segment": the
longest suffix free of the separator. -/
def lastSegment (sep : Char) (cs : List Char) : List Char :=
  (cs.reverse.takeWhile (fun c => c != sep)).reverse

/-- Embedding of `parse_instance_name` (src/metadata.rs 263-270):
`s.split('.').next().filter(|x| !x.is_empty()).ok_or(MetadataParse("instance name"))`. -/
def parse_instance_name (s : String) : Except ErrorKind String :=
  match (splitChar '.' s.data).head? with
  | some x => if x.isEmpty then .error (.MetadataParse "instance name") else .ok (String.mk x)
  | none => .error (.MetadataParse "instance name")

/-- Embedding of `parse_zone` (src/metadata.rs 272-279):
`s.split('/').last().filter(|x| !x.is_empty()).ok_or(MetadataParse("zone"))`. -/
def parse_zone (s : String) : Except ErrorKind String :=
  match (splitChar '/' s.data).getLast? with
  | some x => if x.isEmpty then .error (.MetadataParse "zone") else .ok (String.mk x)
  | none => .error (.MetadataParse "zone")

/-- One HTTP exchange with the metadata server as seen by `get_meta`:
`none` models a transport failure of `send`, `some (status, body)` a
delivered response. -/
abbrev MetaResponse := Option (Nat × String)

/-- Embedding of `get_meta` (src/metadata.rs 151-162): a 200 response
yields the body, any other status yields `HttpResponse(status)`, and a
transport failure propagates as `HttpRequest`. -/
def get_meta (resp : MetaResponse) : Except ErrorKind String :=
  match resp with
  | none => .error .HttpRequest
  | some (status, body) => if status = 200 then .ok body else .error (.HttpResponse status)

/-- Embedding of `get` (src/metadata.rs 169-174): `get_meta` mapped into an
optional value, with the 404 status remapped to `Ok(None)` and every other
error passed through. -/
def get (resp : MetaResponse) : Except ErrorKind (Option String) :=
  match (get_meta resp).map some with
  | .ok v => .ok v
  | .error e =>
    match e with
    | .HttpResponse 404 => .ok none
    | _ => .error e

/-- Request path of the sync `scopes` (src/metadata.rs 242-245): the
account defaults to `"default"` via `unwrap_or`. -/
def scopes_path (service_account : Option String) : String :=
  "instance/service-accounts/" ++ service_account.getD "default" ++ "/scopes"

/-- Embedding of the sync `scopes` (src/metadata.rs 242-245) run against an
abstract server mapping request paths to `get_meta` exchanges. -/
def scopes (server : String → MetaResponse) (service_account : Option String) :
    Except ErrorKind (List String) :=
  (get_meta (server (scopes_path service_account))).map lines

/-- Request path of `Client::scopes` (src/lib.rs 417-424): an explicit
account is formatted into the path, `None` selects the static default
path. -/
def client_scopes_path (service_account : Option String) : String :=
  match service_account with
  | some sa => "/computeMetadata/v1/instance/service-accounts/" ++ sa ++ "/scopes"
  | none => "/computeMetadata/v1/instance/service-accounts/default/scopes"

/-- Embedding of `Client::scopes` (src/lib.rs 417-424) against an abstract
server: the body fetched with `get(path, true)` is trimmed as a whole, then
split into raw lines. -/
def client_scopes (server : String → Except LibError String)
    (service_account : Option String) : Except LibError (List String) :=
  (server (client_scopes_path service_account)).map (fun s => rustLines (trim s))

/-- Body transform of the async `Client::zone` (src/lib.rs 387-392): the
body fetched with `get(path, true)` is trimmed as a whole, then
`Ok(s.split('/').last().unwrap_or("").to_owned())` — the last
`/`-delimited segment is returned as a success even when it is empty,
never as a parse error. -/
def client_zone (body : String) : Except LibError String :=
  .ok (String.mk (((splitChar '/' (trim body).data).getLast?).getD []))

/-- Embedding of `test_on_gce` (src/metadata.rs 45-61).  `env_set` is
whether `GCE_METADATA_HOST` is set; `first` and `second` are the two probe
results in the order they arrive on the mpsc channel; `dmi` is the
`running_on_gce` DMI product-name check; `second_in_time` is whether the
second result arrives within the 5s `recv_timeout` window.  Returns the
detection result and how many probes were launched. -/
def test_on_gce (env_set first second dmi second_in_time : Bool) : Bool × Nat :=
  if env_set then (true, 0)
  else (first || (dmi && (if second_in_time then second else false)), 2)

/-- Embedding of the sync DNS probe `has_target_ip` (src/metadata.rs
76-86): socket addresses are modelled as strings; `none` is a resolution
failure; the probe is positive only when some resolved address equals the
target address (`xs.any(|x| x == addr)` for `169.254.169.254:0`). -/
def has_target_ip (resolved : Option (List String)) (addr : String) : Bool :=
  match resolved with
  | some xs => xs.any (fun x => x == addr)
  | none => false

/-- Embedding of the async client's DNS probe (src/lib.rs 307-315):
positive whenever resolution succeeds with at least one address
(`addrs.len() > 0`). -/
def lib_dns_probe (resolved : Option (List String)) : Bool :=
  match resolved with
  | some xs => decide (0 < xs.length)
  | none => false

/-- Embedding of the `tokio::select!` race of `Client::on_gce`
(src/lib.rs 317-327).  `T` is the probe timeout, `tm`/`bm` the completion
time and value of the header probe, `tn`/`bn` those of the DNS probe.  A
`false` probe result fails its branch pattern and disables the branch, so
the race resolves `true` at the first `true` probe completing before `T`,
and otherwise resolves `false` when the timeout fires at `T`.  Returns the
resolution time and value. -/
def selectRace (T tm tn : Nat) (bm bn : Bool) : Nat × Bool :=
  if bm && decide (tm < T) then
    if bn && decide (tn < T) then (min tm tn, true) else (tm, true)
  else if bn && decide (tn < T) then (tn, true)
  else (T, false)

/-- Embedding of `Client::on_gce`'s detection logic (src/lib.rs 267-328):
the environment-marker short-circuit, else the probe race.  Returns the
detection result and the number of probes launched. -/
def on_gce_detect (envPresent : Bool) (T tm tn : Nat) (bm bn : Bool) : Bool × Nat :=
  if envPresent then (true, 0)
  else ((selectRace T tm tn bm bn).2, 2)

/-- Cache state tags of `impl_cached_meta_fn` (src/metadata.rs 104-106). -/
def UNINITIALIZED : Nat := 0

/-- Cache state tag: a fetch owns the right to compute (src/metadata.rs 105). -/
def INITIALIZING : Nat := 1

/-- Cache state tag: the value is cached (src/metadata.rs 106). -/
def INITIALIZED : Nat := 2

/-- The static cell of one getter generated by `impl_cached_meta_fn`
(src/metadata.rs 116-117): the `STATE` atomic and the `CACHE` static. -/
structure CacheCell (α : Type) where
  state : Nat
  cache : Option α
deriving DecidableEq, Repr

/-- Sequential embedding of one call to a getter generated by
`impl_cached_meta_fn` (src/metadata.rs 120-142), in a quiescent cell (no
concurrent caller, so `INITIALIZING` is never observed at entry; the
concurrent semantics is `MetaStep`).  `fetch` is the outcome `get_meta`
would produce, already mapped.  In the non-empty branch the code reads
`CACHE`; a set cache yields its value (the `INITIALIZED` unwrap), an unset
one yields the `Uninitialized` error of the waiter path.  Returns the
call's result, the updated cell, and whether the fetch was executed. -/
def cachedMetaGet {α : Type} (fetch : Except ErrorKind α) (c : CacheCell α) :
    Except ErrorKind α × CacheCell α × Bool :=
  if c.state = UNINITIALIZED then
    match fetch with
    | .ok v => (.ok v, ⟨INITIALIZED, some v⟩, true)
    | .error e => (.error e, ⟨UNINITIALIZED, c.cache⟩, true)
  else
    (match c.cache with
     | some w => .ok w
     | none => .error .Uninitialized, c, false)

/-- Sequential embedding of one call to a getter generated by
`impl_cache_fn` (src/lib.rs 51-68): for a single caller the double-checked
read/write-lock pattern collapses to a lookup with fill-on-miss; on a
failed fetch the `?` operator returns before anything is stored.  Returns
the call's result, the updated cache, and whether the fetch was
executed. -/
def libCachedGet {α : Type} (fetch : Except LibError α) (cache : Option α) :
    Except LibError α × Option α × Bool :=
  match cache with
  | some w => (.ok w, some w, false)
  | none =>
    match fetch with
    | .ok w => (.ok w, some w, true)
    | .error e => (.error e, none, true)

/-- Control point of one concurrent caller of a cached getter generated by
`impl_cached_meta_fn` (src/metadata.rs 120-142), one point per
shared-memory access of the generated function body. -/
inductive MetaPC (α : Type) where
  | start
  | fetch
  | writeCache
  | writeState
  | readOwn
  | spin
  | readWait
  | readCached
  | done (r : Except ErrorKind α)

/-- Shared memory of one generated getter: the `STATE` atomic, the `CACHE`
static, and an instrumentation counter of executed fetches. -/
structure MetaShared (α : Type) where
  state : Nat
  cache : Option α
  fetchCount : Nat
deriving DecidableEq

/-- Configuration of `n` concurrent callers of one generated getter. -/
abbrev MetaCfg (α : Type) (n : Nat) := MetaShared α × (Fin n → MetaPC α)

/-- Interleaving small-step semantics of `n` concurrent callers of one
getter generated by `impl_cached_meta_fn` (src/metadata.rs 120-142), with
the underlying `get_meta` fetch succeeding with (mapped) value `v` — the
scenario of the single-flight claim.  Each constructor is one atomic
shared-memory access: the opening `compare_and_swap`, the fetch, the
`CACHE` write, the `INITIALIZED` store, the `CACHE` reads of the three
return paths, and the loads of the waiters' spin loop. -/
inductive MetaStep {α : Type} (v : α) {n : Nat} : MetaCfg α n → MetaCfg α n → Prop where
  | cas_win (s : MetaShared α) (pc : Fin n → MetaPC α) (i : Fin n)
      (hpc : pc i = .start) (hs : s.state = UNINITIALIZED) :
      MetaStep v (s, pc) ({ s with state := INITIALIZING }, Function.update pc i .fetch)
  | cas_inflight (s : MetaShared α) (pc : Fin n → MetaPC α) (i : Fin n)
      (hpc : pc i = .start) (hs : s.state = INITIALIZING) :
      MetaStep v (s, pc) (s, Function.update pc i .spin)
  | cas_filled (s : MetaShared α) (pc : Fin n → MetaPC α) (i : Fin n)
      (hpc : pc i = .start) (hs : s.state = INITIALIZED) :
      MetaStep v (s, pc) (s, Function.update pc i .readCached)
  | fetch_ok (s : MetaShared α) (pc : Fin n → MetaPC α) (i : Fin n)
      (hpc : pc i = .fetch) :
      MetaStep v (s, pc)
        ({ s with fetchCount := s.fetchCount + 1 }, Function.update pc i .writeCache)
  | write_cache (s : MetaShared α) (pc : Fin n → MetaPC α) (i : Fin n)
      (hpc : pc i = .writeCache) :
      MetaStep v (s, pc) ({ s with cache := some v }, Function.update pc i .writeState)
  | write_state (s : MetaShared α) (pc : Fin n → MetaPC α) (i : Fin n)
      (hpc : pc i = .writeState) :
      MetaStep v (s, pc) ({ s with state := INITIALIZED }, Function.update pc i .readOwn)
  | read_own (s : MetaShared α) (pc : Fin n → MetaPC α) (i : Fin n) (w : α)
      (hpc : pc i = .readOwn) (hc : s.cache = some w) :
      MetaStep v (s, pc) (s, Function.update pc i (.done (.ok w)))
  | spin_load (s : MetaShared α) (pc : Fin n → MetaPC α) (i : Fin n)
      (hpc : pc i = .spin) (hs : s.state = INITIALIZING) :
      MetaStep v (s, pc) (s, pc)
  | spin_break (s : MetaShared α) (pc : Fin n → MetaPC α) (i : Fin n)
      (hpc : pc i = .spin) (hs : s.state ≠ INITIALIZING) :
      MetaStep v (s, pc) (s, Function.update pc i .readWait)
  | read_wait (s : MetaShared α) (pc : Fin n → MetaPC α) (i : Fin n)
      (hpc : pc i = .readWait) :
      MetaStep v (s, pc)
        (s, Function.update pc i (.done (match s.cache with
          | some w => .ok w
          | none => .error .Uninitialized)))
  | read_cached (s : MetaShared α) (pc : Fin n → MetaPC α) (i : Fin n) (w : α)
      (hpc : pc i = .readCached) (hc : s.cache = some w) :
      MetaStep v (s, pc) (s, Function.update pc i (.done (.ok w)))

/-- Initial configuration: state `UNINITIALIZED`, empty cache, no fetch
executed, every caller at its entry point. -/
def metaInit (α : Type) (n : Nat) : MetaCfg α n :=
  (⟨UNINITIALIZED, none, 0⟩, fun _ => MetaPC.start)

/-- Reachability of a configuration from the initial one under the
interleaving semantics of the generated getter. -/
def MetaReach {α : Type} (v : α) (n : Nat) (c : MetaCfg α n) : Prop :=
  Relation.ReflTransGen (MetaStep v) (metaInit α n) c

/-- Control point of one concurrent caller of a getter generated by
`impl_cache_fn` (src/lib.rs 51-68), one point per lock operation: the read
lock and check, the write-lock acquisition, the re-check under the write
lock, the fetch, and the store-and-return. -/
inductive LibPC (α : Type) where
  | start
  | waitWrite
  | writeCheck
  | fetch
  | store
  | done (r : Except LibError α)

/-- Shared memory of one `impl_cache_fn` getter: the RwLock-guarded
`Option` cell, whether the write lock is held, and an instrumentation
counter of executed fetches. -/
structure LibShared (α : Type) where
  cache : Option α
  writerHeld : Bool
  fetchCount : Nat
deriving DecidableEq

/-- Configuration of `n` concurrent callers of one `impl_cache_fn` getter. -/
abbrev LibCfg (α : Type) (n : Nat) := LibShared α × (Fin n → LibPC α)

/-- Interleaving small-step semantics of `n` concurrent callers of one
getter generated by `impl_cache_fn` (src/lib.rs 51-68; `Client::on_gce`
inlines the same pattern at src/lib.rs 267-275), with the fetch succeeding
with value `v`.  Reading the cell requires the write lock to be free (the
RwLock read guard); the final store releases the write lock and returns in
one step, as no other caller can observe the cell while the lock is
held. -/
inductive LibStep {α : Type} (v : α) {n : Nat} : LibCfg α n → LibCfg α n → Prop where
  | read_hit (s : LibShared α) (pc : Fin n → LibPC α) (i : Fin n) (w : α)
      (hpc : pc i = .start) (hw : s.writerHeld = false) (hc : s.cache = some w) :
      LibStep v (s, pc) (s, Function.update pc i (.done (.ok w)))
  | read_miss (s : LibShared α) (pc : Fin n → LibPC α) (i : Fin n)
      (hpc : pc i = .start) (hw : s.writerHeld = false) (hc : s.cache = none) :
      LibStep v (s, pc) (s, Function.update pc i .waitWrite)
  | acquire (s : LibShared α) (pc : Fin n → LibPC α) (i : Fin n)
      (hpc : pc i = .waitWrite) (hw : s.writerHeld = false) :
      LibStep v (s, pc) ({ s with writerHeld := true }, Function.update pc i .writeCheck)
  | write_hit (s : LibShared α) (pc : Fin n → LibPC α) (i : Fin n) (w : α)
      (hpc : pc i = .writeCheck) (hc : s.cache = some w) :
      LibStep v (s, pc) ({ s with writerHeld := false }, Function.update pc i (.done (.ok w)))
  | write_miss (s : LibShared α) (pc : Fin n → LibPC α) (i : Fin n)
      (hpc : pc i = .writeCheck) (hc : s.cache = none) :
      LibStep v (s, pc) (s, Function.update pc i .fetch)
  | fetch_ok (s : LibShared α) (pc : Fin n → LibPC α) (i : Fin n)
      (hpc : pc i = .fetch) :
      LibStep v (s, pc)
        ({ s with fetchCount := s.fetchCount + 1 }, Function.update pc i .store)
  | store_val (s : LibShared α) (pc : Fin n → LibPC α) (i : Fin n)
      (hpc : pc i = .store) :
      LibStep v (s, pc)
        ({ s with cache := some v, writerHeld := false },
         Function.update pc i (.done (.ok v)))

/-- Initial configuration of the `impl_cache_fn` system: empty cache, write
lock free, no fetch executed, every caller at its entry point. -/
def libInit (α : Type) (n : Nat) : LibCfg α n :=
  (⟨none, false, 0⟩, fun _ => LibPC.start)

/-- Reachability of a configuration from the initial one under the
interleaving semantics of the `impl_cache_fn` getter. -/
def LibReach {α : Type} (v : α) (n : Nat) (c : LibCfg α n) : Prop :=
  Relation.ReflTransGen (LibStep v) (libInit α n) c

/-- Inductive invariant of the `impl_cached_meta_fn` system in the
successful-fetch scenario: the cell moves through three phases —
uninitialized (nobody past the CAS), initializing (exactly one caller owns
the fetch; everybody else is at the CAS or spinning), initialized (the
value is cached, the fetch ran once, and every finished caller returned
it). -/
def MetaInv {α : Type} (v : α) {n : Nat} (c : MetaCfg α n) : Prop :=
  (c.1.state = UNINITIALIZED ∧ c.1.cache = none ∧ c.1.fetchCount = 0 ∧
     ∀ i, c.2 i = MetaPC.start)
  ∨ (c.1.state = INITIALIZING ∧ ∃ i0,
       ((c.2 i0 = MetaPC.fetch ∧ c.1.cache = none ∧ c.1.fetchCount = 0)
        ∨ (c.2 i0 = MetaPC.writeCache ∧ c.1.cache = none ∧ c.1.fetchCount = 1)
        ∨ (c.2 i0 = MetaPC.writeState ∧ c.1.cache = some v ∧ c.1.fetchCount = 1))
       ∧ ∀ j, j ≠ i0 → (c.2 j = MetaPC.start ∨ c.2 j = MetaPC.spin))
  ∨ (c.1.state = INITIALIZED ∧ c.1.cache = some v ∧ c.1.fetchCount = 1 ∧
       ∀ i, c.2 i = MetaPC.start ∨ c.2 i = MetaPC.spin ∨ c.2 i = MetaPC.readWait
            ∨ c.2 i = MetaPC.readCached ∨ c.2 i = MetaPC.readOwn
            ∨ c.2 i = MetaPC.done (.ok v))

/-- Inductive invariant of the `impl_cache_fn` system in the
successful-fetch scenario: before the fetch the cell is empty and at most
one caller is past the write-lock acquisition; after the fetch but before
the store the count is one; once stored, the value is cached, the fetch ran
once, and every finished caller returned it. -/
def LibInv {α : Type} (v : α) {n : Nat} (c : LibCfg α n) : Prop :=
  (c.1.cache = none ∧ c.1.fetchCount = 0 ∧
     ((c.1.writerHeld = false ∧ ∀ i, c.2 i = LibPC.start ∨ c.2 i = LibPC.waitWrite)
      ∨ (c.1.writerHeld = true ∧ ∃ i0,
           (c.2 i0 = LibPC.writeCheck ∨ c.2 i0 = LibPC.fetch)
           ∧ ∀ j, j ≠ i0 → (c.2 j = LibPC.start ∨ c.2 j = LibPC.waitWrite))))
  ∨ (c.1.cache = none ∧ c.1.fetchCount = 1 ∧ c.1.writerHeld = true ∧
       ∃ i0, c.2 i0 = LibPC.store
         ∧ ∀ j, j ≠ i0 → (c.2 j = LibPC.start ∨ c.2 j = LibPC.waitWrite))
  ∨ (c.1.cache = some v ∧ c.1.fetchCount = 1 ∧
       ((c.1.writerHeld = false ∧
           ∀ i, c.2 i = LibPC.start ∨ c.2 i = LibPC.waitWrite
                ∨ c.2 i = LibPC.done (.ok v))
        ∨ (c.1.writerHeld = true ∧ ∃ i0, c.2 i0 = LibPC.writeCheck
             ∧ ∀ j, j ≠ i0 → (c.2 j = LibPC.start ∨ c.2 j = LibPC.waitWrite
                  ∨ c.2 j = LibPC.done (.ok v)))))

/-- Splitting never produces an empty piece list. -/
theorem splitChar_ne_nil (sep : Char) (cs : List Char) : splitChar sep cs ≠ [] := by
  cases cs with
  | nil => simp [splitChar]
  | cons c t =>
    unfold splitChar
    cases h : splitChar sep t with
    | nil => simp
    | cons a l => by_cases hc : c = sep <;> simp [hc]

/-- The first piece of the split is the longest separator-free prefix. -/
theorem splitChar_head (sep : Char) (cs : List Char) :
    (splitChar sep cs).head? = some (firstSegment sep cs) := by
  induction cs with
  | nil => rfl
  | cons c t ih =>
    unfold splitChar firstSegment
    cases h : splitChar sep t with
    | nil => exact absurd h (splitChar_ne_nil sep t)
    | cons a l =>
      rw [h] at ih
      simp only [List.head?_cons, Option.some.injEq] at ih
      by_cases hc : c = sep
      · subst hc
        simp [List.takeWhile_cons]
      · simp [hc, List.takeWhile_cons, ih, firstSegment]

/-- Appending a separator appends one empty piece to the split. -/
theorem splitChar_concat_sep (sep : Char) (ys : List Char) :
    splitChar sep (ys ++ [sep]) = splitChar sep ys ++ [[]] := by
  induction ys with
  | nil => simp [splitChar]
  | cons d t ih =>
    show splitChar sep (d :: (t ++ [sep])) = splitChar sep (d :: t) ++ [[]]
    unfold splitChar
    rw [ih]
    cases h : splitChar sep t with
    | nil => exact absurd h (splitChar_ne_nil sep t)
    | cons a l => by_cases hd : d = sep <;> simp [hd]

/-- Appending a non-separator character extends the last piece of the
split. -/
theorem splitChar_concat (sep c : Char) (ys : List Char) (hc : c ≠ sep) :
    splitChar sep (ys ++ [c])
      = (splitChar sep ys).dropLast
        ++ [((splitChar sep ys).getLast?).getD [] ++ [c]] := by
  induction ys with
  | nil => simp [splitChar, hc]
  | cons d t ih =>
    show splitChar sep (d :: (t ++ [c])) = _
    unfold splitChar
    rw [ih]
    cases h : splitChar sep t with
    | nil => exact absurd h (splitChar_ne_nil sep t)
    | cons a l =>
      cases l with
      | nil =>
        by_cases hd : d = sep <;> simp [hd, h]
      | cons b l' =>
        by_cases hd : d = sep <;>
          simp [hd, h, List.getLast?_cons_cons, List.dropLast_cons₂]

/-- The last piece of the split is the longest separator-free suffix. -/
theorem splitChar_getLast (sep : Char) (cs : List Char) :
    (splitChar sep cs).getLast? = some (lastSegment sep cs) := by
  induction cs using List.reverseRecOn with
  | nil => rfl
  | append_singleton ys c ih =>
    by_cases hc : c = sep
    · subst hc
      rw [splitChar_concat_sep, List.getLast?_concat]
      unfold lastSegment
      simp [List.takeWhile_cons]
    · rw [splitChar_concat sep c ys hc, List.getLast?_concat, ih]
      unfold lastSegment
      simp [List.reverse_append, List.takeWhile_cons, hc, lastSegment]

/-- Dropping a satisfied prefix twice is the same as dropping it once. -/
theorem dropWhile_dropWhile (p : Char → Bool) (l : List Char) :
    (l.dropWhile p).dropWhile p = l.dropWhile p := by
  induction l with
  | nil => rfl
  | cons a t ih =>
    by_cases hp : p a = true
    · simp [List.dropWhile_cons, hp, ih]
    · simp at hp
      simp [List.dropWhile_cons, hp]

/-- The head surviving a `dropWhile` does not satisfy the predicate. -/
theorem head_dropWhile_false (p : Char → Bool) (l : List Char) {c : Char}
    (h : (l.dropWhile p).head? = some c) : p c = false := by
  induction l with
  | nil => simp at h
  | cons a t ih =>
    rw [List.dropWhile_cons] at h
    by_cases hp : p a = true
    · rw [if_pos hp] at h
      exact ih h
    · rw [if_neg hp] at h
      simp only [List.head?_cons, Option.some.injEq] at h
      simp at hp
      exact h ▸ hp

/-- A list whose head does not satisfy the predicate is untouched by
`dropWhile`. -/
theorem dropWhile_of_head_false (p : Char → Bool) {l : List Char}
    (h : ∀ c, l.head? = some c → p c = false) : l.dropWhile p = l := by
  cases l with
  | nil => rfl
  | cons a t =>
    have := h a rfl
    simp [List.dropWhile_cons, this]

/-- Trimming is idempotent on character lists. -/
theorem trimChars_idem (cs : List Char) : trimChars (trimChars cs) = trimChars cs := by
  have hA : trimChars cs = ((cs.dropWhile isWS).reverse.dropWhile isWS).reverse := rfl
  cases hAe : (cs.dropWhile isWS).reverse.dropWhile isWS with
  | nil =>
    rw [hA, hAe]
    rfl
  | cons a t =>
    have hAne : (cs.dropWhile isWS).reverse.dropWhile isWS ≠ [] := by
      rw [hAe]
      simp
    have h2 : ((cs.dropWhile isWS).reverse.dropWhile isWS).getLast?
        = (cs.dropWhile isWS).head? := by
      obtain ⟨pre, hpre⟩ :=
        List.dropWhile_suffix (l := (cs.dropWhile isWS).reverse) isWS
      calc ((cs.dropWhile isWS).reverse.dropWhile isWS).getLast?
          = (pre ++ (cs.dropWhile isWS).reverse.dropWhile isWS).getLast? :=
            (List.getLast?_append_of_ne_nil pre hAne).symm
        _ = ((cs.dropWhile isWS).reverse).getLast? := by rw [hpre]
        _ = (cs.dropWhile isWS).head? := by rw [List.getLast?_reverse]
    have h1 : (((cs.dropWhile isWS).reverse.dropWhile isWS).reverse).dropWhile isWS
        = ((cs.dropWhile isWS).reverse.dropWhile isWS).reverse := by
      apply dropWhile_of_head_false
      intro c hc
      rw [List.head?_reverse, h2] at hc
      exact head_dropWhile_false isWS cs hc
    rw [hA]
    unfold trimChars
    rw [h1, List.reverse_reverse, dropWhile_dropWhile]

/-- Trimming is idempotent on strings. -/
theorem trim_idem (s : String) : trim (trim s) = trim s := by
  exact congrArg String.mk (trimChars_idem s.data)

/-- The invariant `MetaInv` is preserved by every step of the
`impl_cached_meta_fn` system. -/
theorem metaInv_step {α : Type} (v : α) {n : Nat} {c c' : MetaCfg α n}
    (hinv : MetaInv v c) (hstep : MetaStep v c c') : MetaInv v c' := by
  cases hstep with
  | cas_win s pc i hpc hs =>
    unfold MetaInv at hinv ⊢
    dsimp only at hinv ⊢
    rcases hinv with ⟨h0, hc, hf, hall⟩ | ⟨h1, _, _⟩ | ⟨h2, _, _, _⟩
    · refine Or.inr (Or.inl ⟨rfl, i, Or.inl ⟨Function.update_same i _ pc, hc, hf⟩,
        fun j hj => Or.inl ?_⟩)
      rw [Function.update_noteq hj]
      exact hall j
    · rw [hs] at h1
      exact absurd h1 (by decide)
    · rw [hs] at h2
      exact absurd h2 (by decide)
  | cas_inflight s pc i hpc hs =>
    unfold MetaInv at hinv ⊢
    dsimp only at hinv ⊢
    rcases hinv with ⟨h0, _, _, _⟩ | ⟨h1, i0, hsub, hoth⟩ | ⟨h2, _, _, _⟩
    · rw [hs] at h0
      exact absurd h0 (by decide)
    · have hii0 : i ≠ i0 := by
        rintro rfl
        rcases hsub with ⟨h, _, _⟩ | ⟨h, _, _⟩ | ⟨h, _, _⟩ <;> rw [hpc] at h <;> simp at h
      refine Or.inr (Or.inl ⟨h1, i0, ?_, fun j hj => ?_⟩)
      · rwa [Function.update_noteq (fun h => hii0 h.symm)]
      · by_cases hji : j = i
        · subst hji
          rw [Function.update_same]
          exact Or.inr rfl
        · rw [Function.update_noteq hji]
          exact hoth j hj
    · rw [hs] at h2
      exact absurd h2 (by decide)
  | cas_filled s pc i hpc hs =>
    unfold MetaInv at hinv ⊢
    dsimp only at hinv ⊢
    rcases hinv with ⟨h0, _, _, _⟩ | ⟨h1, _, _⟩ | ⟨h2, hc, hf, hall⟩
    · rw [hs] at h0
      exact absurd h0 (by decide)
    · rw [hs] at h1
      exact absurd h1 (by decide)
    · refine Or.inr (Or.inr ⟨h2, hc, hf, fun k => ?_⟩)
      by_cases hki : k = i
      · subst hki
        rw [Function.update_same]
        exact Or.inr (Or.inr (Or.inr (Or.inl rfl)))
      · rw [Function.update_noteq hki]
        exact hall k
  | fetch_ok s pc i hpc =>
    unfold MetaInv at hinv ⊢
    dsimp only at hinv ⊢
    rcases hinv with ⟨h0, hc, hf, hall⟩ | ⟨h1, i0, hsub, hoth⟩ | ⟨h2, hc, hf, hall⟩
    · have := hall i
      rw [hpc] at this
      simp at this
    · have hi0 : i = i0 := by
        by_contra hne
        rcases hoth i hne with h | h <;> rw [hpc] at h <;> simp at h
      subst hi0
      rcases hsub with ⟨hp0, hcn, hfn⟩ | ⟨hp0, _, _⟩ | ⟨hp0, _, _⟩
      · refine Or.inr (Or.inl ⟨h1, i, Or.inr (Or.inl
          ⟨Function.update_same i _ pc, hcn, by rw [hfn]⟩), fun j hj => ?_⟩)
        rw [Function.update_noteq hj]
        exact hoth j hj
      · rw [hpc] at hp0
        simp at hp0
      · rw [hpc] at hp0
        simp at hp0
    · rcases hall i with h | h | h | h | h | h <;> rw [hpc] at h <;> simp at h
  | write_cache s pc i hpc =>
    unfold MetaInv at hinv ⊢
    dsimp only at hinv ⊢
    rcases hinv with ⟨h0, hc, hf, hall⟩ | ⟨h1, i0, hsub, hoth⟩ | ⟨h2, hc, hf, hall⟩
    · have := hall i
      rw [hpc] at this
      simp at this
    · have hi0 : i = i0 := by
        by_contra hne
        rcases hoth i hne with h | h <;> rw [hpc] at h <;> simp at h
      subst hi0
      rcases hsub with ⟨hp0, _, _⟩ | ⟨hp0, hcn, hfn⟩ | ⟨hp0, _, _⟩
      · rw [hpc] at hp0
        simp at hp0
      · refine Or.inr (Or.inl ⟨h1, i, Or.inr (Or.inr
          ⟨Function.update_same i _ pc, rfl, hfn⟩), fun j hj => ?_⟩)
        rw [Function.update_noteq hj]
        exact hoth j hj
      · rw [hpc] at hp0
        simp at hp0
    · rcases hall i with h | h | h | h | h | h <;> rw [hpc] at h <;> simp at h
  | write_state s pc i hpc =>
    unfold MetaInv at hinv ⊢
    dsimp only at hinv ⊢
    rcases hinv with ⟨h0, hc, hf, hall⟩ | ⟨h1, i0, hsub, hoth⟩ | ⟨h2, hc, hf, hall⟩
    · have := hall i
      rw [hpc] at this
      simp at this
    · have hi0 : i = i0 := by
        by_contra hne
        rcases hoth i hne with h | h <;> rw [hpc] at h <;> simp at h
      subst hi0
      rcases hsub with ⟨hp0, _, _⟩ | ⟨hp0, _, _⟩ | ⟨hp0, hcv, hfn⟩
      · rw [hpc] at hp0
        simp at hp0
      · rw [hpc] at hp0
        simp at hp0
      · refine Or.inr (Or.inr ⟨rfl, hcv, hfn, fun k => ?_⟩)
        by_cases hki : k = i
        · subst hki
          rw [Function.update_same]
          exact Or.inr (Or.inr (Or.inr (Or.inr (Or.inl rfl))))
        · rw [Function.update_noteq hki]
          rcases hoth k hki with h | h
          · exact Or.inl h
          · exact Or.inr (Or.inl h)
    · rcases hall i with h | h | h | h | h | h <;> rw [hpc] at h <;> simp at h
  | read_own s pc i w hpc hc =>
    unfold MetaInv at hinv ⊢
    dsimp only at hinv ⊢
    rcases hinv with ⟨h0, hcn, hf, hall⟩ | ⟨h1, i0, hsub, hoth⟩ | ⟨h2, hcv, hf, hall⟩
    · have := hall i
      rw [hpc] at this
      simp at this
    · have hi0 : i = i0 := by
        by_contra hne
        rcases hoth i hne with h | h <;> rw [hpc] at h <;> simp at h
      subst hi0
      rcases hsub with ⟨hp0, _, _⟩ | ⟨hp0, _, _⟩ | ⟨hp0, _, _⟩ <;>
        rw [hpc] at hp0 <;> simp at hp0
    · have hwv : w = v := by
        rw [hcv] at hc
        exact (Option.some.injEq _ _ ▸ hc).symm
      subst hwv
      refine Or.inr (Or.inr ⟨h2, hcv, hf, fun k => ?_⟩)
      by_cases hki : k = i
      · subst hki
        rw [Function.update_same]
        exact Or.inr (Or.inr (Or.inr (Or.inr (Or.inr rfl))))
      · rw [Function.update_noteq hki]
        exact hall k
  | spin_load s pc i hpc hs =>
    exact hinv
  | spin_break s pc i hpc hs =>
    unfold MetaInv at hinv ⊢
    dsimp only at hinv ⊢
    rcases hinv with ⟨h0, hcn, hf, hall⟩ | ⟨h1, i0, hsub, hoth⟩ | ⟨h2, hcv, hf, hall⟩
    · have := hall i
      rw [hpc] at this
      simp at this
    · exact absurd h1 hs
    · refine Or.inr (Or.inr ⟨h2, hcv, hf, fun k => ?_⟩)
      by_cases hki : k = i
      · subst hki
        rw [Function.update_same]
        exact Or.inr (Or.inr (Or.inl rfl))
      · rw [Function.update_noteq hki]
        exact hall k
  | read_wait s pc i hpc =>
    unfold MetaInv at hinv ⊢
    dsimp only at hinv ⊢
    rcases hinv with ⟨h0, hcn, hf, hall⟩ | ⟨h1, i0, hsub, hoth⟩ | ⟨h2, hcv, hf, hall⟩
    · have := hall i
      rw [hpc] at this
      simp at this
    · have hi0 : i = i0 := by
        by_contra hne
        rcases hoth i hne with h | h <;> rw [hpc] at h <;> simp at h
      subst hi0
      rcases hsub with ⟨hp0, _, _⟩ | ⟨hp0, _, _⟩ | ⟨hp0, _, _⟩ <;>
        rw [hpc] at hp0 <;> simp at hp0
    · refine Or.inr (Or.inr ⟨h2, hcv, hf, fun k => ?_⟩)
      by_cases hki : k = i
      · subst hki
        rw [Function.update_same, hcv]
        exact Or.inr (Or.inr (Or.inr (Or.inr (Or.inr rfl))))
      · rw [Function.update_noteq hki]
        exact hall k
  | read_cached s pc i w hpc hc =>
    unfold MetaInv at hinv ⊢
    dsimp only at hinv ⊢
    rcases hinv with ⟨h0, hcn, hf, hall⟩ | ⟨h1, i0, hsub, hoth⟩ | ⟨h2, hcv, hf, hall⟩
    · have := hall i
      rw [hpc] at this
      simp at this
    · have hi0 : i = i0 := by
        by_contra hne
        rcases hoth i hne with h | h <;> rw [hpc] at h <;> simp at h
      subst hi0
      rcases hsub with ⟨hp0, _, _⟩ | ⟨hp0, _, _⟩ | ⟨hp0, _, _⟩ <;>
        rw [hpc] at hp0 <;> simp at hp0
    · have hwv : w = v := by
        rw [hcv] at hc
        exact (Option.some.injEq _ _ ▸ hc).symm
      subst hwv
      refine Or.inr (Or.inr ⟨h2, hcv, hf, fun k => ?_⟩)
      by_cases hki : k = i
      · subst hki
        rw [Function.update_same]
        exact Or.inr (Or.inr (Or.inr (Or.inr (Or.inr rfl))))
      · rw [Function.update_noteq hki]
        exact hall k

/-- Every reachable configuration of the `impl_cached_meta_fn` system
satisfies the invariant. -/
theorem metaReach_inv {α : Type} (v : α) {n : Nat} {c : MetaCfg α n}
    (hr : MetaReach v n c) : MetaInv v c := by
  induction hr with
  | refl =>
    unfold MetaInv metaInit
    exact Or.inl ⟨rfl, rfl, rfl, fun _ => rfl⟩
  | tail _ hstep ih => exact metaInv_step v ih hstep

/-- Single-flight for the sync cached getters: in any reachable
configuration in which every concurrent caller has returned, the fetch ran
exactly once and every caller returned the value it produced. -/
theorem meta_single_flight {α : Type} (v : α) {n : Nat} (hn : 0 < n) (c : MetaCfg α n)
    (hr : MetaReach v n c) (hd : ∀ i, ∃ r, c.2 i = MetaPC.done r) :
    c.1.fetchCount = 1 ∧ ∀ i, c.2 i = MetaPC.done (.ok v) := by
  have hinv := metaReach_inv v hr
  unfold MetaInv at hinv
  rcases hinv with ⟨_, _, _, hall⟩ | ⟨_, i0, hsub, _⟩ | ⟨_, _, hf, hall⟩
  · obtain ⟨r, hr0⟩ := hd ⟨0, hn⟩
    rw [hall ⟨0, hn⟩] at hr0
    simp at hr0
  · obtain ⟨r, hr0⟩ := hd i0
    rcases hsub with ⟨h, _, _⟩ | ⟨h, _, _⟩ | ⟨h, _, _⟩ <;> rw [h] at hr0 <;> simp at hr0
  · refine ⟨hf, fun i => ?_⟩
    obtain ⟨r, hr0⟩ := hd i
    rcases hall i with h | h | h | h | h | h
    · rw [h] at hr0
      simp at hr0
    · rw [h] at hr0
      simp at hr0
    · rw [h] at hr0
      simp at hr0
    · rw [h] at hr0
      simp at hr0
    · rw [h] at hr0
      simp at hr0
    · exact h

/-- The invariant `LibInv` is preserved by every step of the
`impl_cache_fn` system. -/
theorem libInv_step {α : Type} (v : α) {n : Nat} {c c' : LibCfg α n}
    (hinv : LibInv v c) (hstep : LibStep v c c') : LibInv v c' := by
  cases hstep with
  | read_hit s pc i w hpc hw hc =>
    unfold LibInv at hinv ⊢
    dsimp only at hinv ⊢
    rcases hinv with ⟨hcn, _, _⟩ | ⟨hcn, _, _, _⟩ | ⟨hcv, hf, hsub⟩
    · rw [hcn] at hc
      simp at hc
    · rw [hcn] at hc
      simp at hc
    · have hwv : w = v := by
        rw [hcv] at hc
        exact (Option.some.injEq _ _ ▸ hc).symm
      subst hwv
      rcases hsub with ⟨hwf, hall⟩ | ⟨hwt, _⟩
      · refine Or.inr (Or.inr ⟨hcv, hf, Or.inl ⟨hwf, fun k => ?_⟩⟩)
        by_cases hki : k = i
        · subst hki
          rw [Function.update_same]
          exact Or.inr (Or.inr rfl)
        · rw [Function.update_noteq hki]
          exact hall k
      · rw [hw] at hwt
        simp at hwt
  | read_miss s pc i hpc hw hc =>
    unfold LibInv at hinv ⊢
    dsimp only at hinv ⊢
    rcases hinv with ⟨hcn, hf, hsub⟩ | ⟨_, _, hwt, _⟩ | ⟨hcv, _, _⟩
    · rcases hsub with ⟨hwf, hall⟩ | ⟨hwt, _⟩
      · refine Or.inl ⟨hcn, hf, Or.inl ⟨hwf, fun k => ?_⟩⟩
        by_cases hki : k = i
        · subst hki
          rw [Function.update_same]
          exact Or.inr rfl
        · rw [Function.update_noteq hki]
          exact hall k
      · rw [hw] at hwt
        simp at hwt
    · rw [hw] at hwt
      simp at hwt
    · rw [hcv] at hc
      simp at hc
  | acquire s pc i hpc hw =>
    unfold LibInv at hinv ⊢
    dsimp only at hinv ⊢
    rcases hinv with ⟨hcn, hf, hsub⟩ | ⟨_, _, hwt, _⟩ | ⟨hcv, hf, hsub⟩
    · rcases hsub with ⟨hwf, hall⟩ | ⟨hwt, _⟩
      · refine Or.inl ⟨hcn, hf, Or.inr ⟨rfl, i,
          Or.inl (Function.update_same i _ pc), fun j hj => ?_⟩⟩
        rw [Function.update_noteq hj]
        exact hall j
      · rw [hw] at hwt
        simp at hwt
    · rw [hw] at hwt
      simp at hwt
    · rcases hsub with ⟨hwf, hall⟩ | ⟨hwt, _⟩
      · refine Or.inr (Or.inr ⟨hcv, hf, Or.inr ⟨rfl, i,
          Function.update_same i _ pc, fun j hj => ?_⟩⟩)
        rw [Function.update_noteq hj]
        exact hall j
      · rw [hw] at hwt
        simp at hwt
  | write_hit s pc i w hpc hc =>
    unfold LibInv at hinv ⊢
    dsimp only at hinv ⊢
    rcases hinv with ⟨hcn, _, _⟩ | ⟨hcn, _, _, _⟩ | ⟨hcv, hf, hsub⟩
    · rw [hcn] at hc
      simp at hc
    · rw [hcn] at hc
      simp at hc
    · have hwv : w = v := by
        rw [hcv] at hc
        exact (Option.some.injEq _ _ ▸ hc).symm
      subst hwv
      rcases hsub with ⟨hwf, hall⟩ | ⟨hwt, i0, hp0, hoth⟩
      · rcases hall i with h | h | h <;> rw [hpc] at h <;> simp at h
      · have hi0 : i = i0 := by
          by_contra hne
          rcases hoth i hne with h | h | h <;> rw [hpc] at h <;> simp at h
        subst hi0
        refine Or.inr (Or.inr ⟨hcv, hf, Or.inl ⟨rfl, fun k => ?_⟩⟩)
        by_cases hki : k = i
        · subst hki
          rw [Function.update_same]
          exact Or.inr (Or.inr rfl)
        · rw [Function.update_noteq hki]
          exact hoth k hki
  | write_miss s pc i hpc hc =>
    unfold LibInv at hinv ⊢
    dsimp only at hinv ⊢
    rcases hinv with ⟨hcn, hf, hsub⟩ | ⟨_, _, _, i0, hp0, hoth⟩ | ⟨hcv, _, _⟩
    · rcases hsub with ⟨hwf, hall⟩ | ⟨hwt, i0, hp0, hoth⟩
      · rcases hall i with h | h <;> rw [hpc] at h <;> simp at h
      · have hi0 : i = i0 := by
          by_contra hne
          rcases hoth i hne with h | h <;> rw [hpc] at h <;> simp at h
        subst hi0
        refine Or.inl ⟨hcn, hf, Or.inr ⟨hwt, i,
          Or.inr (Function.update_same i _ pc), fun j hj => ?_⟩⟩
        rw [Function.update_noteq hj]
        exact hoth j hj
    · by_cases hi0 : i = i0
      · subst hi0
        rw [hpc] at hp0
        simp at hp0
      · rcases hoth i hi0 with h | h <;> rw [hpc] at h <;> simp at h
    · rw [hcv] at hc
      simp at hc
  | fetch_ok s pc i hpc =>
    unfold LibInv at hinv ⊢
    dsimp only at hinv ⊢
    rcases hinv with ⟨hcn, hf, hsub⟩ | ⟨_, _, _, i0, hp0, hoth⟩ | ⟨hcv, hf, hsub⟩
    · rcases hsub with ⟨hwf, hall⟩ | ⟨hwt, i0, hp0, hoth⟩
      · rcases hall i with h | h <;> rw [hpc] at h <;> simp at h
      · have hi0 : i = i0 := by
          by_contra hne
          rcases hoth i hne with h | h <;> rw [hpc] at h <;> simp at h
        subst hi0
        rcases hp0 with h | h
        · rw [hpc] at h
          simp at h
        · refine Or.inr (Or.inl ⟨hcn, by rw [hf], hwt, i,
            Function.update_same i _ pc, fun j hj => ?_⟩)
          rw [Function.update_noteq hj]
          exact hoth j hj
    · by_cases hi0 : i = i0
      · subst hi0
        rw [hpc] at hp0
        simp at hp0
      · rcases hoth i hi0 with h | h <;> rw [hpc] at h <;> simp at h
    · rcases hsub with ⟨hwf, hall⟩ | ⟨hwt, i0, hp0, hoth⟩
      · rcases hall i with h | h | h <;> rw [hpc] at h <;> simp at h
      · by_cases hi0 : i = i0
        · subst hi0
          rw [hpc] at hp0
          simp at hp0
        · rcases hoth i hi0 with h | h | h <;> rw [hpc] at h <;> simp at h
  | store_val s pc i hpc =>
    unfold LibInv at hinv ⊢
    dsimp only at hinv ⊢
    rcases hinv with ⟨hcn, hf, hsub⟩ | ⟨hcn, hf1, hwt, i0, hp0, hoth⟩ | ⟨hcv, hf, hsub⟩
    · rcases hsub with ⟨hwf, hall⟩ | ⟨hwt, i0, hp0, hoth⟩
      · rcases hall i with h | h <;> rw [hpc] at h <;> simp at h
      · by_cases hi0 : i = i0
        · subst hi0
          rcases hp0 with h | h <;> rw [hpc] at h <;> simp at h
        · rcases hoth i hi0 with h | h <;> rw [hpc] at h <;> simp at h
    · have hi0 : i = i0 := by
        by_contra hne
        rcases hoth i hne with h | h <;> rw [hpc] at h <;> simp at h
      subst hi0
      refine Or.inr (Or.inr ⟨rfl, hf1, Or.inl ⟨rfl, fun k => ?_⟩⟩)
      by_cases hki : k = i
      · subst hki
        rw [Function.update_same]
        exact Or.inr (Or.inr rfl)
      · rw [Function.update_noteq hki]
        rcases hoth k hki with h | h
        · exact Or.inl h
        · exact Or.inr (Or.inl h)
    · rcases hsub with ⟨hwf, hall⟩ | ⟨hwt, i0, hp0, hoth⟩
      · rcases hall i with h | h | h <;> rw [hpc] at h <;> simp at h
      · by_cases hi0 : i = i0
        · subst hi0
          rw [hpc] at hp0
          simp at hp0
        · rcases hoth i hi0 with h | h | h <;> rw [hpc] at h <;> simp at h

/-- Every reachable configuration of the `impl_cache_fn` system satisfies
the invariant. -/
theorem libReach_inv {α : Type} (v : α) {n : Nat} {c : LibCfg α n}
    (hr : LibReach v n c) : LibInv v c := by
  induction hr with
  | refl =>
    unfold LibInv libInit
    exact Or.inl ⟨rfl, rfl, Or.inl ⟨rfl, fun _ => Or.inl rfl⟩⟩
  | tail _ hstep ih => exact libInv_step v ih hstep

/-- Single-flight for the async cached getters: in any reachable
configuration in which every concurrent caller has returned, the fetch ran
exactly once and every caller returned the value it produced. -/
theorem lib_single_flight {α : Type} (v : α) {n : Nat} (hn : 0 < n) (c : LibCfg α n)
    (hr : LibReach v n c) (hd : ∀ i, ∃ r, c.2 i = LibPC.done r) :
    c.1.fetchCount = 1 ∧ ∀ i, c.2 i = LibPC.done (.ok v) := by
  have hinv := libReach_inv v hr
  unfold LibInv at hinv
  rcases hinv with ⟨_, _, hsub⟩ | ⟨_, _, _, i0, hp0, _⟩ | ⟨_, hf, hsub⟩
  · rcases hsub with ⟨_, hall⟩ | ⟨_, i0, hp0, _⟩
    · obtain ⟨r, hr0⟩ := hd ⟨0, hn⟩
      rcases hall ⟨0, hn⟩ with h | h <;> rw [h] at hr0 <;> simp at hr0
    · obtain ⟨r, hr0⟩ := hd i0
      rcases hp0 with h | h <;> rw [h] at hr0 <;> simp at hr0
  · obtain ⟨r, hr0⟩ := hd i0
    rw [hp0] at hr0
    simp at hr0
  · rcases hsub with ⟨_, hall⟩ | ⟨_, i0, hp0, _⟩
    · refine ⟨hf, fun i => ?_⟩
      obtain ⟨r, hr0⟩ := hd i
      rcases hall i with h | h | h
      · rw [h] at hr0
        simp at hr0
      · rw [h] at hr0
        simp at hr0
      · exact h
    · obtain ⟨r, hr0⟩ := hd i0
      rw [hp0] at hr0
      simp at hr0

/-- C2: if the fetch attempt for a cached field fails, the cache entry
transitions back to the empty state and nothing is stored — the error is
returned and the entry is not poisoned — so a subsequent call to the same
getter performs the fetch again (and, when that fetch succeeds, fills the
cache).  Stated for the sync `impl_cached_meta_fn` cell
(src/metadata.rs 121-141) and the async `impl_cache_fn` cell
(src/lib.rs 54-66). -/
theorem c2_failed_fetch_not_poisoned :
    ∀ (α : Type) (e : ErrorKind) (e' : LibError) (v : α) (r : Except ErrorKind α)
      (r' : Except LibError α),
      cachedMetaGet (.error e) (⟨UNINITIALIZED, none⟩ : CacheCell α)
          = (.error e, ⟨UNINITIALIZED, none⟩, true)
      ∧ (cachedMetaGet r (cachedMetaGet (.error e)
            (⟨UNINITIALIZED, none⟩ : CacheCell α)).2.1).2.2 = true
      ∧ cachedMetaGet (.ok v) (cachedMetaGet (.error e)
            (⟨UNINITIALIZED, none⟩ : CacheCell α)).2.1
          = (.ok v, ⟨INITIALIZED, some v⟩, true)
      ∧ libCachedGet (.error e') (none : Option α) = (.error e', none, true)
      ∧ (libCachedGet r' (libCachedGet (.error e') (none : Option α)).2.1).2.2 = true
      ∧ libCachedGet (.ok v) (libCachedGet (.error e') (none : Option α)).2.1
          = (.ok v, some v, true) := by
  intro α e e' v r r'
  refine ⟨rfl, ?_, rfl, rfl, ?_, rfl⟩
  · cases r <;> rfl
  · cases r' <;> rfl

/-- C4: if the `GCE_METADATA_HOST` override is set, on-GCE detection
returns `true` immediately and launches no HTTP or DNS probe, in both the
sync detection (src/metadata.rs 46-48) and the async client
(src/lib.rs 277-282). -/
theorem c4_env_marker_short_circuit :
    ∀ (first second dmi second_in_time : Bool) (T tm tn : Nat) (bm bn : Bool),
      test_on_gce true first second dmi second_in_time = (true, 0)
      ∧ on_gce_detect true T tm tn bm bn = (true, 0) := by
  intro first second dmi second_in_time T tm tn bm bn
  exact ⟨rfl, rfl⟩

/-- C5: `get` returns `Ok(Some(body))` for a 200 response, `Ok(None)`
exactly for a 404 response, and an error carrying the status code for every
other status (src/metadata.rs 151-174). -/
theorem c5_get_status_contract :
    ∀ (status : Nat) (body : String),
      get (some (status, body)) =
        (if status = 200 then .ok (some body)
         else if status = 404 then .ok none
         else .error (.HttpResponse status))
      ∧ (get (some (status, body)) = .ok none ↔ status = 404)
      ∧ get_meta (some (status, body)) =
          (if status = 200 then .ok body else .error (.HttpResponse status)) := by
  intro status body
  by_cases h200 : status = 200
  · subst h200
    have hg : get (some (200, body)) = .ok (some body) := rfl
    exact ⟨rfl, by rw [hg]; simp, rfl⟩
  · by_cases h404 : status = 404
    · subst h404
      have hg : get (some (404, body)) = .ok none := rfl
      exact ⟨rfl, by rw [hg]; simp, rfl⟩
    · have hm : get_meta (some (status, body)) = .error (.HttpResponse status) := by
        simp [get_meta, h200]
      have hg : get (some (status, body)) = .error (.HttpResponse status) := by
        unfold get
        rw [hm]
        rw [show ((Except.error (ErrorKind.HttpResponse status) :
              Except ErrorKind String).map some)
            = (Except.error (ErrorKind.HttpResponse status) :
              Except ErrorKind (Option String)) from rfl]
        split
        · rename_i heq
          simp at heq
        · rename_i e heq
          injection heq with he
          subst he
          split
          · rename_i heq2
            exact absurd heq2 (by simp [h404])
          · rfl
      refine ⟨?_, ?_, ?_⟩
      · rw [hg, if_neg h200, if_neg h404]
      · rw [hg]
        simp [h404]
      · rw [hm, if_neg h200]

/-- C6 counterexample: a DNS resolution that succeeds with one address
(`10.0.0.1`) which is not the metadata IP is a success with at least one
address, yet the sync probe `has_target_ip` (src/metadata.rs 76-86) reports
`false` — it requires one resolved address to equal `169.254.169.254:0`;
the async probe (src/lib.rs 307-315) reports `true` on the same outcome. -/
theorem c6_counterexample :
    has_target_ip (some ["10.0.0.1:0"]) "169.254.169.254:0" = false
    ∧ lib_dns_probe (some ["10.0.0.1:0"]) = true := by
  exact ⟨by decide, by decide⟩

/-- C6 (amended): the async client's DNS probe reports positive exactly
when resolution succeeds with at least one address; the sync probe
`has_target_ip` reports positive exactly when resolution succeeds and one
of the returned addresses equals the target metadata address. -/
theorem c6_dns_probe_semantics :
    (∀ (xs : List String) (addr : String),
        (has_target_ip (some xs) addr = true ↔ addr ∈ xs))
    ∧ (∀ addr, has_target_ip none addr = false)
    ∧ (∀ xs : List String, (lib_dns_probe (some xs) = true ↔ xs ≠ []))
    ∧ lib_dns_probe none = false := by
  refine ⟨?_, fun _ => rfl, ?_, rfl⟩
  · intro xs addr
    unfold has_target_ip
    rw [List.any_eq_true]
    constructor
    · rintro ⟨x, hx, he⟩
      rw [beq_iff_eq] at he
      exact he ▸ hx
    · intro hm
      exact ⟨addr, hm, by simp⟩
  · intro xs
    simp [lib_dns_probe, List.length_pos]

/-- C1: for every number of concurrent callers invoking the same cached
getter while its entry is uncached, the underlying fetch executes exactly
once — the other callers wait for that computation instead of fetching
themselves, as any interleaving reaching a configuration where all callers
returned contains exactly one fetch — and every caller receives the value
produced by that single successful fetch.  Stated for the CAS-and-spin
getters generated by `impl_cached_meta_fn` (project_id, numeric_project_id,
instance_id; src/metadata.rs 108-149) and for the double-checked RwLock
pattern of `impl_cache_fn` and the inlined on-GCE flag cache
(src/lib.rs 51-68 and 267-275). -/
theorem c1_single_flight :
    (∀ (α : Type) (v : α) (n : Nat) (c : MetaCfg α n), 0 < n → MetaReach v n c →
        (∀ i, ∃ r, c.2 i = MetaPC.done r) →
        c.1.fetchCount = 1 ∧ ∀ i, c.2 i = MetaPC.done (.ok v))
    ∧ (∀ (α : Type) (v : α) (n : Nat) (c : LibCfg α n), 0 < n → LibReach v n c →
        (∀ i, ∃ r, c.2 i = LibPC.done r) →
        c.1.fetchCount = 1 ∧ ∀ i, c.2 i = LibPC.done (.ok v)) :=
  ⟨fun _ v _ c hn hr hd => meta_single_flight v hn c hr hd,
   fun _ v _ c hn hr hd => lib_single_flight v hn c hr hd⟩

/-- C1 witness: a complete two-caller interleaving of each system — the
first caller fetches and caches the on-GCE flag `true` while the second
joins the cached result — reaching a configuration where both callers
returned, with the fetch counted exactly once. -/
theorem c1_single_flight_witness :
    (∃ c : MetaCfg Bool 2, MetaReach true 2 c ∧ (∀ i, ∃ r, c.2 i = MetaPC.done r)
       ∧ c.1.fetchCount = 1 ∧ (∀ i, c.2 i = MetaPC.done (.ok true)))
    ∧ (∃ c : LibCfg Bool 2, LibReach true 2 c ∧ (∀ i, ∃ r, c.2 i = LibPC.done r)
       ∧ c.1.fetchCount = 1 ∧ (∀ i, c.2 i = LibPC.done (.ok true))) := by
  constructor
  · have hreach : MetaReach true 2 _ :=
      Relation.ReflTransGen.tail (Relation.ReflTransGen.tail (Relation.ReflTransGen.tail
        (Relation.ReflTransGen.tail (Relation.ReflTransGen.tail (Relation.ReflTransGen.tail
          (Relation.ReflTransGen.tail Relation.ReflTransGen.refl
            (MetaStep.cas_win _ _ 0 rfl rfl))
          (MetaStep.fetch_ok _ _ 0 rfl))
          (MetaStep.write_cache _ _ 0 rfl))
          (MetaStep.write_state _ _ 0 rfl))
          (MetaStep.read_own _ _ 0 true rfl rfl))
          (MetaStep.cas_filled _ _ 1 rfl rfl))
          (MetaStep.read_cached _ _ 1 true rfl rfl)
    refine ⟨_, hreach, fun i => ⟨.ok true, by fin_cases i <;> rfl⟩, ?_, ?_⟩
    · exact (c1_single_flight.1 Bool true 2 _ (by decide) hreach
        (fun i => ⟨.ok true, by fin_cases i <;> rfl⟩)).1
    · exact (c1_single_flight.1 Bool true 2 _ (by decide) hreach
        (fun i => ⟨.ok true, by fin_cases i <;> rfl⟩)).2
  · have hreach : LibReach true 2 _ :=
      Relation.ReflTransGen.tail (Relation.ReflTransGen.tail (Relation.ReflTransGen.tail
        (Relation.ReflTransGen.tail (Relation.ReflTransGen.tail
          (Relation.ReflTransGen.tail Relation.ReflTransGen.refl
            (LibStep.read_miss _ _ 0 rfl rfl rfl))
          (LibStep.acquire _ _ 0 rfl rfl))
          (LibStep.write_miss _ _ 0 rfl rfl))
          (LibStep.fetch_ok _ _ 0 rfl))
          (LibStep.store_val _ _ 0 rfl))
          (LibStep.read_hit _ _ 1 true rfl rfl rfl)
    refine ⟨_, hreach, fun i => ⟨.ok true, by fin_cases i <;> rfl⟩, ?_, ?_⟩
    · exact (c1_single_flight.2 Bool true 2 _ (by decide) hreach
        (fun i => ⟨.ok true, by fin_cases i <;> rfl⟩)).1
    · exact (c1_single_flight.2 Bool true 2 _ (by decide) hreach
        (fun i => ⟨.ok true, by fin_cases i <;> rfl⟩)).2

/-- C3 counterexample: with the override unset, the header probe delivering
`false` first, the DNS probe reporting `true` well before the 5s timeout,
and the DMI product-name check negative, the sync detection
`test_on_gce` (src/metadata.rs 45-61) resolves `false` — it returns without
ever waiting for the second probe — although a probe reported `true` before
the timeout; the async race (src/lib.rs 317-327) resolves `true` on the
same outcomes (header probe false at time 1, DNS probe true at time 2,
timeout 5). -/
theorem c3_counterexample :
    (test_on_gce false false true false true).1 = false
    ∧ (on_gce_detect false 5 1 2 false true).1 = true := by
  exact ⟨rfl, rfl⟩

/-- C3 (amended): in the async client's detection race, either probe
reporting `true` before the timeout resolves detection `true` without
waiting for the slower probe (the resolution time is bounded by that
probe's completion time), and detection resolves `false`, at the timeout,
exactly when no probe reports `true` before it.  In the sync detection,
the first-delivered probe result being `true` resolves `true`; when it is
`false`, the second result is awaited (within the 5s window) only if the
DMI product-name check indicates GCE, and otherwise `false` is returned
without consulting the second probe. -/
theorem c3_probe_race_semantics :
    (∀ (T tm tn : Nat) (bn : Bool), tm < T →
        (selectRace T tm tn true bn).2 = true ∧ (selectRace T tm tn true bn).1 ≤ tm)
    ∧ (∀ (T tm tn : Nat) (bm : Bool), tn < T →
        (selectRace T tm tn bm true).2 = true ∧ (selectRace T tm tn bm true).1 ≤ tn)
    ∧ (∀ (T tm tn : Nat) (bm bn : Bool),
        ((selectRace T tm tn bm bn).2 = false ↔
          ¬(bm = true ∧ tm < T) ∧ ¬(bn = true ∧ tn < T)))
    ∧ (∀ (T tm tn : Nat) (bm bn : Bool),
        (selectRace T tm tn bm bn).2 = false → (selectRace T tm tn bm bn).1 = T)
    ∧ (∀ (second dmi t : Bool), test_on_gce false true second dmi t = (true, 2))
    ∧ (∀ (second t : Bool), test_on_gce false false second false t = (false, 2))
    ∧ (∀ (second t : Bool), test_on_gce false false second true t = ((t && second), 2)) := by
  refine ⟨?_, ?_, ?_, ?_, ?_, ?_, ?_⟩
  · intro T tm tn bn htm
    by_cases h2 : tn < T <;> cases bn <;>
      simp [selectRace, htm, h2, Nat.min_le_left]
  · intro T tm tn bm htn
    by_cases h1 : tm < T <;> cases bm <;>
      simp [selectRace, htn, h1, Nat.min_le_right]
  · intro T tm tn bm bn
    by_cases h1 : tm < T <;> by_cases h2 : tn < T <;>
      cases bm <;> cases bn <;> simp [selectRace, h1, h2]
  · intro T tm tn bm bn
    by_cases h1 : tm < T <;> by_cases h2 : tn < T <;>
      cases bm <;> cases bn <;> simp [selectRace, h1, h2]
  · intro second dmi t
    rfl
  · intro second t
    rfl
  · intro second t
    cases t <;> rfl

/-- C3 witness: the amended race properties applied at concrete times —
header probe true at time 1 with the DNS probe slower (time 7), and DNS
probe true at time 2 with the header probe disabled. -/
theorem c3_probe_race_semantics_witness :
    ((selectRace 5 1 7 true false).2 = true ∧ (selectRace 5 1 7 true false).1 ≤ 1)
    ∧ ((selectRace 5 7 2 false true).2 = true ∧ (selectRace 5 7 2 false true).1 ≤ 2)
    ∧ (selectRace 5 7 7 true true).1 = 5 := by
  refine ⟨c3_probe_race_semantics.1 5 1 7 false (by decide),
    c3_probe_race_semantics.2.1 5 7 2 false (by decide),
    c3_probe_race_semantics.2.2.2.1 5 7 7 true true (by decide)⟩

/-- C8 counterexample: the async list getter `Client::instance_attrs`
(src/lib.rs 394-398) splits on newlines without trimming lines or dropping
empty ones, so on the body `"\na\n\tb\n"` it yields `["", "a", "\tb"]` and
not the `["a", "b"]` the claim requires of the list-valued getters. -/
theorem c8_counterexample :
    client_attrs_lines "\na\n\tb\n" = ["", "a", "\tb"]
    ∧ client_attrs_lines "\na\n\tb\n" ≠ ["a", "b"] := by
  exact ⟨by decide, by decide⟩

/-- C7 counterexample: the async `Client::zone` (src/lib.rs 387-392), also
cited by the claim, is `Ok(s.split('/').last().unwrap_or("").to_owned())`:
on the empty body — and on any body whose last segment is empty, such as
`"a/"` — the empty segment is returned as the success `Ok("")`, not as the
parse error the claim requires; the sync `parse_zone` does report the
error on the same input. -/
theorem c7_counterexample :
    client_zone "" = .ok "" ∧ client_zone "a/" = .ok ""
    ∧ parse_zone "" = .error (.MetadataParse "zone") := by
  exact ⟨by decide, by decide, by decide⟩

/-- C7 (amended): zone parsing returns the last `/`-delimited segment of
the input — the longest separator-free suffix.  In the sync crate
(`parse_zone`, src/metadata.rs 272-279) an empty resulting segment,
including the one produced by the empty input, is a parse error rather
than a success; the async `Client::zone` (src/lib.rs 387-392) instead
returns the last segment of the trimmed body as a success even when it is
empty. -/
theorem c7_parse_zone_last_segment :
    (∀ s : String,
        (parse_zone s = .ok (String.mk (lastSegment '/' s.data))
          ↔ lastSegment '/' s.data ≠ [])
        ∧ (lastSegment '/' s.data = [] →
            parse_zone s = .error (.MetadataParse "zone"))
        ∧ (∀ z, parse_zone s = .ok z → z = String.mk (lastSegment '/' s.data)))
    ∧ (∀ body : String,
        client_zone body = .ok (String.mk (lastSegment '/' (trim body).data)))
    ∧ parse_zone "projects/123/zones/asia-northeast1-a" = .ok "asia-northeast1-a"
    ∧ parse_zone "" = .error (.MetadataParse "zone")
    ∧ client_zone "" = .ok "" := by
  refine ⟨?_, ?_, by decide, by decide, by decide⟩
  case refine_2 =>
    intro body
    unfold client_zone
    rw [splitChar_getLast]
    rfl
  intro s
  have hred : parse_zone s
      = (if (lastSegment '/' s.data).isEmpty then .error (.MetadataParse "zone")
         else .ok (String.mk (lastSegment '/' s.data))) := by
    unfold parse_zone
    rw [splitChar_getLast]
  by_cases h : lastSegment '/' s.data = []
  · rw [hred, h]
    refine ⟨by simp, fun _ => by simp, fun z hz => by simp at hz⟩
  · have hie : (lastSegment '/' s.data).isEmpty = false := by
      cases hfs : lastSegment '/' s.data with
      | nil => exact absurd hfs h
      | cons a l => rfl
    rw [hred, hie]
    refine ⟨by simp [h], fun h' => absurd h' h, fun z hz => ?_⟩
    simp only [Bool.false_eq_true, if_false, Except.ok.injEq] at hz
    exact hz.symm

/-- C7 witness: the characterization applied at the claim's two concrete
inputs. -/
theorem c7_parse_zone_last_segment_witness :
    lastSegment '/' "".data = []
    ∧ parse_zone "" = .error (.MetadataParse "zone")
    ∧ parse_zone "projects/123/zones/asia-northeast1-a"
        = .ok (String.mk (lastSegment '/' "projects/123/zones/asia-northeast1-a".data)) := by
  refine ⟨by decide, (c7_parse_zone_last_segment.1 "").2.1 (by decide),
    ((c7_parse_zone_last_segment.1 "projects/123/zones/asia-northeast1-a").1).mpr (by decide)⟩

/-- C9: instance-name parsing returns the first `.`-delimited segment of
the hostname — the longest separator-free prefix — and an empty resulting
segment, including the one produced by the empty input, is a parse error
rather than a success (src/metadata.rs 263-270). -/
theorem c9_parse_instance_name_first_segment :
    (∀ s : String,
        (parse_instance_name s = .ok (String.mk (firstSegment '.' s.data))
          ↔ firstSegment '.' s.data ≠ [])
        ∧ (firstSegment '.' s.data = [] →
            parse_instance_name s = .error (.MetadataParse "instance name"))
        ∧ (∀ z, parse_instance_name s = .ok z → z = String.mk (firstSegment '.' s.data)))
    ∧ parse_instance_name "abc.c.ef.internal" = .ok "abc"
    ∧ parse_instance_name "" = .error (.MetadataParse "instance name") := by
  refine ⟨?_, by decide, by decide⟩
  intro s
  have hred : parse_instance_name s
      = (if (firstSegment '.' s.data).isEmpty then .error (.MetadataParse "instance name")
         else .ok (String.mk (firstSegment '.' s.data))) := by
    unfold parse_instance_name
    rw [splitChar_head]
  by_cases h : firstSegment '.' s.data = []
  · rw [hred, h]
    refine ⟨by simp, fun _ => by simp, fun z hz => by simp at hz⟩
  · have hie : (firstSegment '.' s.data).isEmpty = false := by
      cases hfs : firstSegment '.' s.data with
      | nil => exact absurd hfs h
      | cons a l => rfl
    rw [hred, hie]
    refine ⟨by simp [h], fun h' => absurd h' h, fun z hz => ?_⟩
    simp only [Bool.false_eq_true, if_false, Except.ok.injEq] at hz
    exact hz.symm

/-- C9 witness: the characterization applied at the claim's concrete
input. -/
theorem c9_parse_instance_name_first_segment_witness :
    firstSegment '.' "abc.c.ef.internal".data ≠ []
    ∧ parse_instance_name "abc.c.ef.internal"
        = .ok (String.mk (firstSegment '.' "abc.c.ef.internal".data)) := by
  refine ⟨by decide,
    ((c9_parse_instance_name_first_segment.1 "abc.c.ef.internal").1).mpr (by decide)⟩

/-- C8 (amended): the sync crate's `lines` helper (src/metadata.rs 251-257)
splits on newlines, trims every line and drops the empty ones — every
produced line is nonempty and trimmed, `lines "\na\n\tb\n" = ["a", "b"]`
and `lines "" = []` — while the async client's attribute getters
(src/lib.rs 394-404) split on newlines only, keeping empty and untrimmed
lines. -/
theorem c8_lines_semantics :
    (∀ (s l : String), l ∈ lines s → l.isEmpty = false ∧ trim l = l)
    ∧ lines "\na\n\tb\n" = ["a", "b"]
    ∧ lines "" = []
    ∧ (∀ s : String, client_attrs_lines s = rustLines s)
    ∧ client_attrs_lines "\na\n\tb\n" = ["", "a", "\tb"] := by
  refine ⟨?_, by decide, by decide, fun _ => rfl, by decide⟩
  intro s l hl
  unfold lines at hl
  rw [List.mem_filter] at hl
  obtain ⟨hmem, hne⟩ := hl
  rw [List.mem_map] at hmem
  obtain ⟨l0, _, rfl⟩ := hmem
  refine ⟨?_, trim_idem l0⟩
  simpa using hne

/-- C8 witness: the line `"a"` of the claim's concrete body is produced by
`lines`, and it is nonempty and trimmed. -/
theorem c8_lines_semantics_witness :
    "a" ∈ lines "\na\n\tb\n" ∧ "a".isEmpty = false ∧ trim "a" = "a" := by
  have h : "a" ∈ lines "\na\n\tb\n" := by decide
  exact ⟨h, c8_lines_semantics.1 "\na\n\tb\n" "a" h⟩

/-- C10: passing no service account to the scopes getter is equivalent to
passing `"default"`: the requested path is identical and, for every
identical server response, the results are identical — in the sync crate
(src/metadata.rs 242-245) and in the async client (src/lib.rs 417-424). -/
theorem c10_scopes_default_equiv :
    scopes_path none = scopes_path (some "default")
    ∧ (∀ server : String → MetaResponse, scopes server none = scopes server (some "default"))
    ∧ client_scopes_path none = client_scopes_path (some "default")
    ∧ (∀ server : String → Except LibError String,
        client_scopes server none = client_scopes server (some "default")) := by
  refine ⟨rfl, fun server => rfl, by decide, fun server => ?_⟩
  unfold client_scopes
  rw [show client_scopes_path none = client_scopes_path (some "default") by decide]

end Gcemeta
